import Mathlib

/-!
Verification of the libsql-shell REPL (src/rust/libsql-shell/src/main.rs).

A Rust `String` is embedded as a `List Char`.  Rust indexes strings by BYTES:
`s[a..b]` panics unless `a` and `b` fall on UTF-8 character boundaries, so the
embedding keeps explicit byte arithmetic via `Char.utf8Size` and models the
fallible slicing operations with `Option` (`none` = panic).  `StrStatements::next`
iterates `self.value.chars().enumerate()` — a CHARACTER index — and then uses
that index to slice BYTES; the embedding reproduces this faithfully.

Panics are modelled as `Except.error ()`; a normal return is `Except.ok`.
-/

/-- Unicode `White_Space` property, the predicate behind Rust's
`char::is_whitespace` (used by `str::trim` / `str::trim_end`). -/
def rustIsWhitespace (c : Char) : Bool :=
  c = ' ' || c = '\t' || c = '\n' || c = '\r' || c = '\x0b' || c = '\x0c' ||
  c = '\u0085' || c = '\u00A0' || c = '\u1680' ||
  ('\u2000' ≤ c && c ≤ '\u200A') ||
  c = '\u2028' || c = '\u2029' || c = '\u202F' || c = '\u205F' || c = '\u3000'

/-- Rust `str::trim`: strip leading and trailing whitespace. -/
def rustTrim (s : List Char) : List Char :=
  ((s.dropWhile rustIsWhitespace).reverse.dropWhile rustIsWhitespace).reverse

/-- Rust `str::trim_end`: strip trailing whitespace. -/
def rustTrimEnd (s : List Char) : List Char :=
  (s.reverse.dropWhile rustIsWhitespace).reverse

/-- Drop `n` BYTES from the front of a string; `none` when `n` is not a
character boundary or exceeds the length (Rust `&s[n..]` panics there). -/
def byteDrop : List Char → Nat → Option (List Char)
  | s, 0 => some s
  | [], _ + 1 => none
  | c :: cs, n + 1 =>
    if c.utf8Size ≤ n + 1 then byteDrop cs (n + 1 - c.utf8Size) else none

/-- Take the first `n` BYTES of a string; `none` when `n` is not a character
boundary or exceeds the length (Rust `&s[..n]` panics there). -/
def byteTake : List Char → Nat → Option (List Char)
  | _, 0 => some []
  | [], _ + 1 => none
  | c :: cs, n + 1 =>
    if c.utf8Size ≤ n + 1 then (byteTake cs (n + 1 - c.utf8Size)).map (c :: ·) else none

/-- Rust `&s[a..b]` by bytes (requires `a ≤ b` and both on boundaries). -/
def byteSlice (s : List Char) (a b : Nat) : Option (List Char) :=
  if a ≤ b then (byteDrop s a).bind (fun t => byteTake t (b - a)) else none

/-- The scan loop of `StrStatements::next`.  `value` is `self.value`; `rest`
is the not-yet-visited suffix of the `chars()` iterator, `index` the current
character index, `pos` and `embedded` the two mutable locals.  Returns
`Except.error ()` on panic, `Except.ok none` when the `for` loop falls through
(iterator exhausted, `self.value` untouched), and `Except.ok (some (stmt, v))`
for `return Some(stmt)` with `self.value` set to `v`. -/
def strStatementsLoop (value : List Char) :
    List Char → Nat → Nat → Bool → Except Unit (Option (List Char × List Char))
  | [], _, _, _ => Except.ok none
  | c :: rest, index, pos, embedded =>
    if c = '\'' then
      strStatementsLoop value rest (index + 1) pos (!embedded)
    else if embedded || c != ';' then
      strStatementsLoop value rest (index + 1) pos embedded
    else
      match byteSlice value pos (index + 1) with
      | none => Except.error ()
      | some str_statement =>
        if str_statement.head? = some ';' ∨ str_statement = [] then
          strStatementsLoop value rest (index + 1) (index + 1) embedded
        else
          match byteDrop value (index + 1) with
          | none => Except.error ()
          | some newValue => Except.ok (some (rustTrim str_statement, newValue))

/-- One call of `StrStatements::next` on buffer `value`. -/
def strStatementsNext (value : List Char) :
    Except Unit (Option (List Char × List Char)) :=
  strStatementsLoop value value 0 0 false

/-- Exhaust the iterator: repeatedly call `next`, collecting the yielded
statements and the final buffer contents.  `fuel` bounds the number of calls;
each yield strictly shrinks the buffer, so any `fuel > value.length` suffices.
Fuel exhaustion and panics are both `Except.error ()`. -/
def runAll : Nat → List Char → Except Unit (List (List Char) × List Char)
  | 0, _ => Except.error ()
  | fuel + 1, value =>
    match strStatementsNext value with
    | Except.error _ => Except.error ()
    | Except.ok none => Except.ok ([], value)
    | Except.ok (some (stmt, rest)) =>
      match runAll fuel rest with
      | Except.error _ => Except.error ()
      | Except.ok (stmts, buf) => Except.ok (stmt :: stmts, buf)

/-- A skipped prefix: a concatenation of discarded candidate spans, each of
which begins with `;` (the "bare terminator" spans the scan skips over). -/
def IsSkipChunks (s : List Char) : Prop :=
  ∃ chunks : List (List Char), s = chunks.flatten ∧ ∀ ch ∈ chunks, ch.head? = some ';'

/-- `Reconstructs value stmts buf`: the original buffer `value` splits, in
order and without overlap or loss, into skipped bare-terminator spans, the
untrimmed texts of the yielded statements, and the final leftover buffer
`buf`; the yielded statements are those texts trimmed. -/
inductive Reconstructs : List Char → List (List Char) → List Char → Prop
  | nil (buf : List Char) : Reconstructs buf [] buf
  | cons (skip cand rest : List Char) (stmts : List (List Char)) (buf : List Char) :
      IsSkipChunks skip → cand ≠ [] → cand.head? ≠ some ';' →
      Reconstructs rest stmts buf →
      Reconstructs (skip ++ cand ++ rest) (rustTrim cand :: stmts) buf

/-- The result of one iteration of `main`'s read loop on a successfully read
raw line (the `Ok(line)` arm): the new pending text, the complete logical
unit dispatched this iteration (if any), and the entry passed to
`add_history_entry` (if any). -/
structure LineStep where
  newLeftovers : List Char
  emitted : Option (List Char)
  histEntry : Option (List Char)

/-- The `Ok(line)` arm of the loop body: `let line = leftovers + line.trim_end()`;
a unit is complete when it ends with `;` or starts with `.`, in which case the
pending text is cleared, the line is appended to history and dispatched;
otherwise `leftovers = line + " "` and nothing is emitted. -/
def replStepLine (leftovers rawLine : List Char) : LineStep :=
  let line := leftovers ++ rustTrimEnd rawLine
  if line.getLast? = some ';' ∨ line.head? = some '.' then
    ⟨[], some line, some line⟩
  else
    ⟨line ++ [' '], none, none⟩

/-- The prompt computed at the top of the loop: the primary prompt
`"libsql> "` when no pending text, the continuation prompt `"...   > "`
otherwise. -/
def promptFor (leftovers : List Char) : List Char :=
  if leftovers.isEmpty then "libsql> ".toList else "...   > ".toList

/-- The outcomes `rl.readline` can produce in `main`'s loop. -/
inductive ReplEvent where
  | line (l : List Char)
  | interrupted
  | eof
  | readError

/-- Which path ended the read loop / process. -/
inductive ExitCause where
  | eofEnd
  | errEnd
  | quitCmd

/-- Final observable outcome of the REPL: process exit code, the history
contents written by `save_history` (`none` when it never ran), and the
terminating path. -/
structure ReplFinal where
  exitCode : Nat
  saved : Option (List (List Char))
  cause : ExitCause

/-- Effect of `run_command` on the loop: `"quit"` calls
`std::process::exit(0)`, `"tables"` runs a generated statement and continues,
anything else prints "Unknown command" and continues. -/
inductive CommandEffect where
  | exitProcess
  | ranTables
  | unknownCmd

def run_command (command : List Char) : CommandEffect :=
  if command = "quit".toList then CommandEffect.exitProcess
  else if command = "tables".toList then CommandEffect.ranTables
  else CommandEffect.unknownCmd

/-- The command name handed to `run_command`: the line after the `.` marker,
up to the first space (`cmd.split_once(' ')`). -/
def commandNameOf (line : List Char) : List Char :=
  (line.drop 1).takeWhile (fun c => c != ' ')

/-- `main`'s read loop, driven by a finite list of readline events, carrying
the pending text and the in-memory history.  Returns `none` when the modelled
event list is exhausted before the loop ends.  `Eof` and read errors `break`
out of the loop, after which `save_history` runs and `main` returns `Ok(())`
— process exit code 0; the `quit` directive calls `std::process::exit(0)`
immediately, bypassing `save_history`. -/
def replRun : List ReplEvent → List Char → List (List Char) → Option ReplFinal
  | [], _, _ => none
  | ReplEvent.eof :: _, _, hist => some ⟨0, some hist, ExitCause.eofEnd⟩
  | ReplEvent.readError :: _, _, hist => some ⟨0, some hist, ExitCause.errEnd⟩
  | ReplEvent.interrupted :: evs, _, hist => replRun evs [] hist
  | ReplEvent.line l :: evs, leftovers, hist =>
    let step := replStepLine leftovers l
    match step.emitted with
    | none => replRun evs step.newLeftovers hist
    | some unit =>
      let hist' := match step.histEntry with
        | some e => hist ++ [e]
        | none => hist
      if unit.head? = some '.' then
        match run_command (commandNameOf unit) with
        | CommandEffect.exitProcess => some ⟨0, none, ExitCause.quitCmd⟩
        | _ => replRun evs [] hist'
      else
        replRun evs [] hist'

/-- The database engine interface `run_statement` consumes (the spec's
Execution Dispatcher, an external collaborator): prepare, execute and column
names, keyed by the statement text. -/
structure Db where
  prepare : List Char → Except String Unit
  execute : List Char → Except String (List (List String))
  columns : List Char → List String

/-- A console event printed inside `run_statement`'s loop. -/
inductive OutEvent where
  | errorMsg (msg : String)
  | table (columns : List String) (rows : List (List String))

/-- The `for` loop of `run_statement`: for each segmented statement, prepare
(print `Error: _` and `continue` on failure), execute (same), `continue` on an
empty row set, else print the table.  `acc` holds the printed events in
reverse; `Except.error ()` is a segmentation panic or fuel exhaustion. -/
def runStatementLoop (db : Db) :
    Nat → List Char → List OutEvent → Except Unit (List OutEvent)
  | 0, _, _ => Except.error ()
  | fuel + 1, value, acc =>
    match strStatementsNext value with
    | Except.error _ => Except.error ()
    | Except.ok none => Except.ok acc.reverse
    | Except.ok (some (s, rest)) =>
      match db.prepare s with
      | Except.error e =>
        runStatementLoop db fuel rest (OutEvent.errorMsg ("Error: " ++ e) :: acc)
      | Except.ok _ =>
        match db.execute s with
        | Except.error e =>
          runStatementLoop db fuel rest (OutEvent.errorMsg ("Error: " ++ e) :: acc)
        | Except.ok rows =>
          if rows.isEmpty then runStatementLoop db fuel rest acc
          else runStatementLoop db fuel rest (OutEvent.table (db.columns s) rows :: acc)

/-- `run_statement connection statement`: run every statement segmented from
`statement`, collecting the console events in order. -/
def run_statement (db : Db) (fuel : Nat) (statement : List Char) :
    Except Unit (List OutEvent) :=
  runStatementLoop db fuel statement []

/-- Modelled from the spec (Execution Dispatcher contract): the outcome of a
single statement on its own — its failure report, its printed table, or
nothing for an empty row set — independent of any other statement in the
unit. -/
def statementOutcome (db : Db) (s : List Char) : Option OutEvent :=
  match db.prepare s with
  | Except.error e => some (OutEvent.errorMsg ("Error: " ++ e))
  | Except.ok _ =>
    match db.execute s with
    | Except.error e => some (OutEvent.errorMsg ("Error: " ++ e))
    | Except.ok rows =>
      if rows.isEmpty then none
      else some (OutEvent.table (db.columns s) rows)

/-- A concrete engine for the C6 witness: `"BAD;"` fails to prepare, the
statement `"SELECT 1;"` returns one row, anything else returns no rows. -/
def dbC6 : Db :=
  ⟨fun s => if s = "BAD;".toList then Except.error "near BAD: syntax error" else Except.ok (),
   fun s => if s = "SELECT 1;".toList then Except.ok [["1"]] else Except.ok [],
   fun _ => ["1"]⟩

/-- `rusqlite::types::ValueRef`.  `Text` and `Blob` carry raw bytes.  The
`Real` payload is a 64-bit float whose Rust `Display` rendering is outside
this development (approximated by Lean's `Float` printing; no claim touches
it). -/
inductive ValueRef where
  | null
  | integer (i : Int)
  | real (r : Float)
  | text (s : List Nat)
  | blob (b : List Nat)

/-- Strict UTF-8 decoding of a byte sequence (`std::str::from_utf8`): rejects
stray continuation bytes, overlong encodings, surrogates and values above
`U+10FFFF`. -/
def utf8Decode : List Nat → Option (List Char)
  | [] => some []
  | b1 :: rest =>
    if b1 < 0x80 then
      (utf8Decode rest).map (fun cs => Char.ofNat b1 :: cs)
    else if 0xC2 ≤ b1 ∧ b1 ≤ 0xDF then
      match rest with
      | b2 :: rest2 =>
        if 0x80 ≤ b2 ∧ b2 ≤ 0xBF then
          (utf8Decode rest2).map (fun cs =>
            Char.ofNat ((b1 - 0xC0) * 0x40 + (b2 - 0x80)) :: cs)
        else none
      | [] => none
    else if 0xE0 ≤ b1 ∧ b1 ≤ 0xEF then
      match rest with
      | b2 :: b3 :: rest3 =>
        if (if b1 = 0xE0 then 0xA0 ≤ b2 ∧ b2 ≤ 0xBF
            else if b1 = 0xED then 0x80 ≤ b2 ∧ b2 ≤ 0x9F
            else 0x80 ≤ b2 ∧ b2 ≤ 0xBF) ∧ 0x80 ≤ b3 ∧ b3 ≤ 0xBF then
          (utf8Decode rest3).map (fun cs =>
            Char.ofNat ((b1 - 0xE0) * 0x1000 + (b2 - 0x80) * 0x40 + (b3 - 0x80)) :: cs)
        else none
      | _ => none
    else if 0xF0 ≤ b1 ∧ b1 ≤ 0xF4 then
      match rest with
      | b2 :: b3 :: b4 :: rest4 =>
        if (if b1 = 0xF0 then 0x90 ≤ b2 ∧ b2 ≤ 0xBF
            else if b1 = 0xF4 then 0x80 ≤ b2 ∧ b2 ≤ 0x8F
            else 0x80 ≤ b2 ∧ b2 ≤ 0xBF) ∧
            0x80 ≤ b3 ∧ b3 ≤ 0xBF ∧ 0x80 ≤ b4 ∧ b4 ≤ 0xBF then
          (utf8Decode rest4).map (fun cs =>
            Char.ofNat ((b1 - 0xF0) * 0x40000 + (b2 - 0x80) * 0x1000 +
              (b3 - 0x80) * 0x40 + (b4 - 0x80)) :: cs)
        else none
      | _ => none
    else none

/-- The standard base64 alphabet used by `general_purpose::STANDARD_NO_PAD`. -/
def base64Alphabet : List Char :=
  "ABCDEFGHIJKLMNOPQRSTUVWXYZabcdefghijklmnopqrstuvwxyz0123456789+/".toList

def base64Char (n : Nat) : Char := base64Alphabet.getD n 'A'

/-- Base64 without padding over u8 values. -/
def base64Encode : List Nat → List Char
  | b1 :: b2 :: b3 :: rest =>
    base64Char (b1 / 4) ::
    base64Char (b1 % 4 * 16 + b2 / 16) ::
    base64Char (b2 % 16 * 4 + b3 / 64) ::
    base64Char (b3 % 64) :: base64Encode rest
  | [b1, b2] =>
    [base64Char (b1 / 4), base64Char (b1 % 4 * 16 + b2 / 16), base64Char (b2 % 16 * 4)]
  | [b1] => [base64Char (b1 / 4), base64Char (b1 % 4 * 16)]
  | [] => []

/-- `format_value`.  `Except.error ()` is the panic of
`std::str::from_utf8(s).unwrap()` on invalid UTF-8 text bytes. -/
def format_value (v : ValueRef) : Except Unit String :=
  match v with
  | ValueRef.null => Except.ok "null"
  | ValueRef.integer i => Except.ok (toString i)
  | ValueRef.real r => Except.ok (toString r)
  | ValueRef.text s =>
    match utf8Decode s with
    | none => Except.error ()
    | some cs => Except.ok (String.mk cs)
  | ValueRef.blob b => Except.ok ("0x" ++ String.mk (base64Encode b))

/-- Sequence possibly-panicking computations left to right (the
`map`/`collect` pattern: the first panic aborts the whole collection). -/
def collectPanic {α : Type} : List (Except Unit α) → Except Unit (List α)
  | [] => Except.ok []
  | Except.error _ :: _ => Except.error ()
  | Except.ok a :: rest =>
    match collectPanic rest with
    | Except.error _ => Except.error ()
    | Except.ok as => Except.ok (a :: as)

/-- One row of `execute`'s closure:
`(0..column_count).map(|idx| format_value(row.get_ref(idx).unwrap()))` —
a failed column access (modelled as out-of-range) also panics. -/
def formatRow (row : List ValueRef) (columnCount : Nat) : Except Unit (List String) :=
  collectPanic ((List.range columnCount).map (fun idx =>
    match row[idx]? with
    | none => Except.error ()
    | some v => format_value v))

/-- `execute`: driver-level errors (`query_map` failing) travel in the inner
`Except String` — the function's `Result` channel — while the unwraps inside
the row-collection loop panic through the outer `Except Unit`. -/
def execute (queryResult : Except String (List (List ValueRef))) (columnCount : Nat) :
    Except Unit (Except String (List (List String))) :=
  match queryResult with
  | Except.error e => Except.ok (Except.error e)
  | Except.ok rows =>
    match collectPanic (rows.map (fun row => formatRow row columnCount)) with
    | Except.error _ => Except.error ()
    | Except.ok out => Except.ok (Except.ok out)

/-- C2: segmenting `"SELECT ';' FROM test; SELECT * FROM test;;"` yields
`"SELECT ';' FROM test;"` (the quoted `;` is no boundary), then
`"SELECT * FROM test;"`, and a third call — on the leftover bare `";"` —
reports no more statements. -/
theorem c2_quoted_semicolon_example :
    strStatementsNext ("SELECT ';' FROM test; SELECT * FROM test;;".toList) =
      Except.ok (some ("SELECT ';' FROM test;".toList, " SELECT * FROM test;;".toList)) ∧
    strStatementsNext (" SELECT * FROM test;;".toList) =
      Except.ok (some ("SELECT * FROM test;".toList, ";".toList)) ∧
    strStatementsNext (";".toList) = Except.ok none :=
  ⟨rfl, rfl, rfl⟩

/-- C4: `next` PANICS on multi-byte input.  On `"日;"` the `;` has character
index 1, and `self.value[pos..index + 1]` slices bytes `0..2` — byte 2 is in
the middle of the 3-byte character `日`, so the slice panics.  The claim (and
the spec) say every call returns a statement or "no more statements". -/
theorem c4_next_panics_on_multibyte :
    strStatementsNext ("日;".toList) = Except.error () :=
  rfl

/-- C3 counterexamples, one per violated conjunct of the claim:
on `" ;"` the yielded statement trims to the bare `";"` (the code only skips
candidates whose FIRST character is `;`, and here it is a space); on `"é;"`
the yielded statement is `"é"` — it does not end in `;`, because the byte
slice `0..2` stops before the semicolon (character index 1, byte offset 2);
on a no-break space between two semicolons the yielded statement is empty after trimming — the byte
slice `1..3` is exactly the no-break space, which `trim` removes. -/
theorem c3_counterexample :
    strStatementsNext (" ;".toList) = Except.ok (some ([';'], [])) ∧
    strStatementsNext ("é;".toList) = Except.ok (some (['é'], [';'])) ∧
    strStatementsNext (";\u00A0;".toList) = Except.ok (some ([], [';'])) :=
  ⟨rfl, rfl, rfl⟩

lemma byteDrop_zero (s : List Char) : byteDrop s 0 = some s := by
  cases s <;> rfl

lemma byteTake_zero (s : List Char) : byteTake s 0 = some [] := by
  cases s <;> rfl

lemma byteDrop_nil_succ (n : Nat) : byteDrop [] (n + 1) = none := rfl

lemma byteTake_nil_succ (n : Nat) : byteTake [] (n + 1) = none := rfl

lemma byteDrop_cons_succ (c : Char) (cs : List Char) (n : Nat) :
    byteDrop (c :: cs) (n + 1) =
      if c.utf8Size ≤ n + 1 then byteDrop cs (n + 1 - c.utf8Size) else none := rfl

lemma byteTake_cons_succ (c : Char) (cs : List Char) (n : Nat) :
    byteTake (c :: cs) (n + 1) =
      if c.utf8Size ≤ n + 1 then (byteTake cs (n + 1 - c.utf8Size)).map (c :: ·) else none := rfl

lemma byteTake_append_byteDrop :
    ∀ (s : List Char) (n : Nat) (u t : List Char),
      byteTake s n = some u → byteDrop s n = some t → s = u ++ t := by
  intro s
  induction s with
  | nil =>
    intro n u t hu ht
    cases n with
    | zero =>
      rw [byteTake_zero] at hu
      rw [byteDrop_zero] at ht
      cases hu; cases ht; rfl
    | succ n => rw [byteTake_nil_succ] at hu; cases hu
  | cons c cs ih =>
    intro n u t hu ht
    cases n with
    | zero =>
      rw [byteTake_zero] at hu
      rw [byteDrop_zero] at ht
      cases hu; cases ht; rfl
    | succ n =>
      rw [byteTake_cons_succ] at hu
      rw [byteDrop_cons_succ] at ht
      by_cases hsz : c.utf8Size ≤ n + 1
      · rw [if_pos hsz] at hu ht
        obtain ⟨u', hu', rfl⟩ := Option.map_eq_some'.mp hu
        have := ih (n + 1 - c.utf8Size) u' t hu' ht
        simp [this]
      · rw [if_neg hsz] at hu; cases hu

lemma byteDrop_some_of_byteTake_some :
    ∀ (s : List Char) (n : Nat) (u : List Char),
      byteTake s n = some u → ∃ t, byteDrop s n = some t := by
  intro s
  induction s with
  | nil =>
    intro n u hu
    cases n with
    | zero => exact ⟨[], byteDrop_zero []⟩
    | succ n => rw [byteTake_nil_succ] at hu; cases hu
  | cons c cs ih =>
    intro n u hu
    cases n with
    | zero => exact ⟨c :: cs, byteDrop_zero _⟩
    | succ n =>
      rw [byteTake_cons_succ] at hu
      by_cases hsz : c.utf8Size ≤ n + 1
      · rw [if_pos hsz] at hu
        obtain ⟨u', hu', rfl⟩ := Option.map_eq_some'.mp hu
        obtain ⟨t, ht⟩ := ih _ u' hu'
        exact ⟨t, by rw [byteDrop_cons_succ, if_pos hsz]; exact ht⟩
      · rw [if_neg hsz] at hu; cases hu

lemma byteTake_some_of_byteDrop_some :
    ∀ (s : List Char) (n : Nat) (t : List Char),
      byteDrop s n = some t → ∃ u, byteTake s n = some u := by
  intro s
  induction s with
  | nil =>
    intro n t ht
    cases n with
    | zero => exact ⟨[], byteTake_zero []⟩
    | succ n => rw [byteDrop_nil_succ] at ht; cases ht
  | cons c cs ih =>
    intro n t ht
    cases n with
    | zero => exact ⟨[], byteTake_zero _⟩
    | succ n =>
      rw [byteDrop_cons_succ] at ht
      by_cases hsz : c.utf8Size ≤ n + 1
      · rw [if_pos hsz] at ht
        obtain ⟨u, hu⟩ := ih _ t ht
        exact ⟨c :: u, by rw [byteTake_cons_succ, if_pos hsz, hu]; rfl⟩
      · rw [if_neg hsz] at ht; cases ht

lemma byteTake_add :
    ∀ (s : List Char) (a : Nat) (u t : List Char) (m : Nat) (v : List Char),
      byteTake s a = some u → byteDrop s a = some t → byteTake t m = some v →
      byteTake s (a + m) = some (u ++ v) := by
  intro s
  induction s with
  | nil =>
    intro a u t m v hu ht hv
    cases a with
    | zero =>
      rw [byteTake_zero] at hu
      rw [byteDrop_zero] at ht
      cases hu; cases ht
      simpa using hv
    | succ a => rw [byteTake_nil_succ] at hu; cases hu
  | cons c cs ih =>
    intro a u t m v hu ht hv
    cases a with
    | zero =>
      rw [byteTake_zero] at hu
      rw [byteDrop_zero] at ht
      cases hu; cases ht
      simpa using hv
    | succ a =>
      rw [byteTake_cons_succ] at hu
      rw [byteDrop_cons_succ] at ht
      by_cases hsz : c.utf8Size ≤ a + 1
      · rw [if_pos hsz] at hu ht
        obtain ⟨u', hu', rfl⟩ := Option.map_eq_some'.mp hu
        have hrec := ih (a + 1 - c.utf8Size) u' t m v hu' ht hv
        have harith : a + 1 + m - c.utf8Size = a + 1 - c.utf8Size + m := by omega
        have hsz' : c.utf8Size ≤ a + 1 + m := by omega
        have : byteTake (c :: cs) (a + 1 + m) =
            (byteTake cs (a + 1 + m - c.utf8Size)).map (c :: ·) := by
          cases hm : a + 1 + m with
          | zero => omega
          | succ k =>
            rw [byteTake_cons_succ]
            rw [if_pos (by omega)]
        rw [this, harith, hrec]
        rfl
      · rw [if_neg hsz] at hu; cases hu

lemma byteDrop_add :
    ∀ (s : List Char) (a : Nat) (t : List Char) (m : Nat) (r : List Char),
      byteDrop s a = some t → byteDrop t m = some r →
      byteDrop s (a + m) = some r := by
  intro s
  induction s with
  | nil =>
    intro a t m r ht hr
    cases a with
    | zero =>
      rw [byteDrop_zero] at ht; cases ht
      simpa using hr
    | succ a => rw [byteDrop_nil_succ] at ht; cases ht
  | cons c cs ih =>
    intro a t m r ht hr
    cases a with
    | zero =>
      rw [byteDrop_zero] at ht; cases ht
      simpa using hr
    | succ a =>
      rw [byteDrop_cons_succ] at ht
      by_cases hsz : c.utf8Size ≤ a + 1
      · rw [if_pos hsz] at ht
        have hrec := ih (a + 1 - c.utf8Size) t m r ht hr
        have : byteDrop (c :: cs) (a + 1 + m) =
            byteDrop cs (a + 1 + m - c.utf8Size) := by
          cases hm : a + 1 + m with
          | zero => omega
          | succ k =>
            rw [byteDrop_cons_succ]
            rw [if_pos (by omega)]
        rw [this]
        have harith : a + 1 + m - c.utf8Size = a + 1 - c.utf8Size + m := by omega
        rw [harith]
        exact hrec
      · rw [if_neg hsz] at ht; cases ht

lemma isSkipChunks_nil : IsSkipChunks [] :=
  ⟨[], rfl, by simp⟩

lemma isSkipChunks_append (u cand : List Char) (hu : IsSkipChunks u)
    (hc : cand.head? = some ';') : IsSkipChunks (u ++ cand) := by
  obtain ⟨chunks, rfl, hch⟩ := hu
  refine ⟨chunks ++ [cand], by simp, ?_⟩
  intro ch hch'
  rcases List.mem_append.mp hch' with h | h
  · exact hch ch h
  · rcases List.mem_singleton.mp h with rfl
    exact hc

lemma isSkipChunks_append_empty (u cand : List Char) (hu : IsSkipChunks u)
    (hc : cand = []) : IsSkipChunks (u ++ cand) := by
  subst hc; simpa using hu

lemma strStatementsLoop_yield (value stmt newVal : List Char) :
    ∀ (rest : List Char) (index pos : Nat) (emb : Bool),
      rest = value.drop index →
      pos ≤ index →
      (∀ u, byteTake value pos = some u → IsSkipChunks u) →
      strStatementsLoop value rest index pos emb = Except.ok (some (stmt, newVal)) →
      ∃ q j skip cand,
        q ≤ j ∧
        byteTake value q = some skip ∧
        IsSkipChunks skip ∧
        byteSlice value q (j + 1) = some cand ∧
        byteDrop value (j + 1) = some newVal ∧
        cand ≠ [] ∧
        cand.head? ≠ some ';' ∧
        stmt = rustTrim cand ∧
        (value.drop j).head? = some ';' ∧
        value = skip ++ cand ++ newVal := by
  intro rest
  induction rest with
  | nil =>
    intro index pos emb _ _ _ hrun
    simp [strStatementsLoop] at hrun
  | cons c rest ih =>
    intro index pos emb hdrop hpos hskip hrun
    have hdrop' : rest = value.drop (index + 1) := by
      have h1 := List.drop_drop 1 index value
      rw [← hdrop] at h1
      simpa [Nat.add_comm] using h1
    simp only [strStatementsLoop] at hrun
    by_cases hq : c = '\''
    · rw [if_pos hq] at hrun
      exact ih (index + 1) pos (!emb) hdrop' (Nat.le_succ_of_le hpos) hskip hrun
    · rw [if_neg hq] at hrun
      cases hB : (emb || c != ';') with
      | true =>
        rw [if_pos hB] at hrun
        exact ih (index + 1) pos emb hdrop' (Nat.le_succ_of_le hpos) hskip hrun
      | false =>
        rw [if_neg (by simp [hB])] at hrun
        have hsemi : c = ';' := by
          have := Bool.or_eq_false_iff.mp hB
          simpa using this.2
        split at hrun
        · simp at hrun
        · rename_i str_statement hslice
          have hle : pos ≤ index + 1 := by omega
          have hslice' := hslice
          unfold byteSlice at hslice'
          rw [if_pos hle] at hslice'
          by_cases hsc : str_statement.head? = some ';' ∨ str_statement = []
          · rw [if_pos hsc] at hrun
            cases hbd : byteDrop value pos with
            | none => rw [hbd] at hslice'; simp at hslice'
            | some t =>
              rw [hbd, Option.some_bind] at hslice'
              obtain ⟨u0, hu0⟩ := byteTake_some_of_byteDrop_some value pos t hbd
              have hu0skip := hskip u0 hu0
              have htake : byteTake value (index + 1) = some (u0 ++ str_statement) := by
                have h := byteTake_add value pos u0 t (index + 1 - pos) str_statement hu0 hbd hslice'
                rwa [show pos + (index + 1 - pos) = index + 1 by omega] at h
              have hinv : ∀ u, byteTake value (index + 1) = some u → IsSkipChunks u := by
                intro u hu
                rw [htake] at hu
                cases hu
                rcases hsc with h | h
                · exact isSkipChunks_append _ _ hu0skip h
                · exact isSkipChunks_append_empty _ _ hu0skip h
              exact ih (index + 1) (index + 1) emb hdrop' (le_refl _) hinv hrun
          · rw [if_neg hsc] at hrun
            push_neg at hsc
            obtain ⟨hhead, hne⟩ := hsc
            split at hrun
            · simp at hrun
            · rename_i newValue hbd2
              have hpair : rustTrim str_statement = stmt ∧ newValue = newVal := by
                simpa using hrun
              obtain ⟨hstmt, hnewv⟩ := hpair
              subst hnewv
              cases hbd : byteDrop value pos with
              | none => rw [hbd] at hslice'; simp at hslice'
              | some t =>
                rw [hbd, Option.some_bind] at hslice'
                obtain ⟨u0, hu0⟩ := byteTake_some_of_byteDrop_some value pos t hbd
                have hu0skip := hskip u0 hu0
                obtain ⟨t2, ht2⟩ :=
                  byteDrop_some_of_byteTake_some t (index + 1 - pos) str_statement hslice'
                have hvsplit : value = u0 ++ t :=
                  byteTake_append_byteDrop value pos u0 t hu0 hbd
                have htsplit : t = str_statement ++ t2 :=
                  byteTake_append_byteDrop t (index + 1 - pos) str_statement t2 hslice' ht2
                have hdropfull : byteDrop value (index + 1) = some t2 := by
                  have h := byteDrop_add value pos t (index + 1 - pos) t2 hbd ht2
                  rwa [show pos + (index + 1 - pos) = index + 1 by omega] at h
                have ht2eq : t2 = newValue := by
                  rw [hbd2] at hdropfull
                  exact ((Option.some.injEq _ _).mp hdropfull).symm
                subst ht2eq
                refine ⟨pos, index, u0, str_statement, hpos, hu0, hu0skip, hslice, hbd2,
                  hne, hhead, hstmt.symm, ?_, ?_⟩
                · rw [← hdrop, hsemi]
                  rfl
                · rw [hvsplit, htsplit, List.append_assoc]

/-- Specification of a successful `next` call: the buffer decomposes into a
skipped prefix of bare-terminator chunks, the untrimmed candidate, and the new
buffer, and the yielded statement is the candidate trimmed. -/
lemma strStatementsNext_yield (value stmt newVal : List Char)
    (h : strStatementsNext value = Except.ok (some (stmt, newVal))) :
    ∃ q j skip cand,
      q ≤ j ∧
      byteTake value q = some skip ∧
      IsSkipChunks skip ∧
      byteSlice value q (j + 1) = some cand ∧
      byteDrop value (j + 1) = some newVal ∧
      cand ≠ [] ∧
      cand.head? ≠ some ';' ∧
      stmt = rustTrim cand ∧
      (value.drop j).head? = some ';' ∧
      value = skip ++ cand ++ newVal := by
  refine strStatementsLoop_yield value stmt newVal value 0 0 false rfl (le_refl 0) ?_ h
  intro u hu
  rw [byteTake_zero] at hu
  cases hu
  exact isSkipChunks_nil

lemma runAll_reconstructs :
    ∀ (fuel : Nat) (value : List Char) (stmts : List (List Char)) (buf : List Char),
      runAll fuel value = Except.ok (stmts, buf) → Reconstructs value stmts buf := by
  intro fuel
  induction fuel with
  | zero => intro value stmts buf h; simp [runAll] at h
  | succ fuel ih =>
    intro value stmts buf h
    simp only [runAll] at h
    split at h
    · simp at h
    · have hp : ([] : List (List Char)) = stmts ∧ value = buf := by simpa using h
      obtain ⟨rfl, rfl⟩ := hp
      exact Reconstructs.nil value
    · rename_i stmt rest heq
      split at h
      · simp at h
      · rename_i stmts' buf' hrec
        have hp : stmt :: stmts' = stmts ∧ buf' = buf := by simpa using h
        obtain ⟨rfl, rfl⟩ := hp
        obtain ⟨q, j, skip, cand, _, _, hskipC, _, _, hne, hhead, hstmt, _, hdecomp⟩ :=
          strStatementsNext_yield value stmt rest heq
        rw [hdecomp, hstmt]
        exact Reconstructs.cons skip cand rest stmts' buf' hskipC hne hhead
          (ih rest stmts' buf' hrec)

/-- C1: for every input with balanced single quotes, the statements yielded by
exhausting the iterator reconstruct the buffer exactly: the buffer splits into
the skipped bare-terminator spans, the untrimmed statement texts (in yield
order, each trimming to the yielded statement), and the leftover buffer — no
statement text is duplicated or dropped. -/
theorem c1_segmenter_reconstruction (value : List Char) (fuel : Nat)
    (stmts : List (List Char)) (buf : List Char)
    (_hbalanced : value.count '\'' % 2 = 0)
    (hrun : runAll fuel value = Except.ok (stmts, buf)) :
    Reconstructs value stmts buf :=
  runAll_reconstructs fuel value stmts buf hrun

/-- Witness for C1: a concrete run on `"SELECT 1;;SELECT 2;"`. -/
theorem c1_segmenter_reconstruction_witness :
    Reconstructs ("SELECT 1;;SELECT 2;".toList)
      ["SELECT 1;".toList, "SELECT 2;".toList] [] :=
  c1_segmenter_reconstruction ("SELECT 1;;SELECT 2;".toList) 25
    ["SELECT 1;".toList, "SELECT 2;".toList] [] (by decide) rfl

lemma byteTake_ascii :
    ∀ (s : List Char), (∀ c ∈ s, c.utf8Size = 1) → ∀ (n : Nat),
      byteTake s n = if n ≤ s.length then some (s.take n) else none := by
  intro s
  induction s with
  | nil =>
    intro _ n
    cases n with
    | zero => simp [byteTake_zero]
    | succ n => simp [byteTake_nil_succ]
  | cons c cs ih =>
    intro hascii n
    cases n with
    | zero => simp [byteTake_zero]
    | succ n =>
      have hc : c.utf8Size = 1 := hascii c (by simp)
      rw [byteTake_cons_succ, hc, if_pos (by omega : 1 ≤ n + 1)]
      have : n + 1 - 1 = n := by omega
      rw [this, ih (fun d hd => hascii d (by simp [hd])) n]
      by_cases hlen : n ≤ cs.length
      · rw [if_pos hlen, if_pos (by simp only [List.length_cons]; omega)]
        simp
      · rw [if_neg hlen, if_neg (by simp only [List.length_cons]; omega)]
        rfl

lemma byteDrop_ascii :
    ∀ (s : List Char), (∀ c ∈ s, c.utf8Size = 1) → ∀ (n : Nat),
      byteDrop s n = if n ≤ s.length then some (s.drop n) else none := by
  intro s
  induction s with
  | nil =>
    intro _ n
    cases n with
    | zero => simp [byteDrop_zero]
    | succ n => simp [byteDrop_nil_succ]
  | cons c cs ih =>
    intro hascii n
    cases n with
    | zero => simp [byteDrop_zero]
    | succ n =>
      have hc : c.utf8Size = 1 := hascii c (by simp)
      rw [byteDrop_cons_succ, hc, if_pos (by omega : 1 ≤ n + 1)]
      have : n + 1 - 1 = n := by omega
      rw [this, ih (fun d hd => hascii d (by simp [hd])) n]
      by_cases hlen : n ≤ cs.length
      · rw [if_pos hlen, if_pos (by simp only [List.length_cons]; omega)]
        rfl
      · rw [if_neg hlen, if_neg (by simp only [List.length_cons]; omega)]

lemma getLast?_take_succ {α : Type} :
    ∀ (l : List α) (m : Nat) (c : α),
      (l.drop m).head? = some c → (l.take (m + 1)).getLast? = some c := by
  intro l
  induction l with
  | nil => intro m c h; simp at h
  | cons a l ih =>
    intro m c h
    cases m with
    | zero =>
      have : a = c := by simpa using h
      subst this
      simp
    | succ m =>
      have h' : (l.drop m).head? = some c := by simpa using h
      have ht := ih m c h'
      have hne : l.take (m + 1) ≠ [] := by
        intro hnil; rw [hnil] at ht; simp at ht
      obtain ⟨b, t', hbt⟩ : ∃ b t', l.take (m + 1) = b :: t' := by
        cases hx : l.take (m + 1) with
        | nil => exact absurd hx hne
        | cons b t' => exact ⟨b, t', rfl⟩
      rw [List.take_succ_cons, hbt, List.getLast?_cons_cons]
      rw [hbt] at ht
      exact ht

lemma dropWhile_getLast? {p : Char → Bool} :
    ∀ (l : List Char) (c : Char), l.getLast? = some c → p c = false →
      (l.dropWhile p).getLast? = some c := by
  intro l
  induction l with
  | nil => intro c h _; simp at h
  | cons a l ih =>
    intro c h hpc
    cases l with
    | nil =>
      have : a = c := by simpa using h
      subst this
      rw [List.dropWhile_cons, if_neg (by simp [hpc])]
      simp
    | cons b l' =>
      rw [List.getLast?_cons_cons] at h
      by_cases hpa : p a = true
      · rw [List.dropWhile_cons, if_pos hpa]
        exact ih c h hpc
      · rw [List.dropWhile_cons, if_neg hpa, List.getLast?_cons_cons]
        exact h

lemma rustTrim_getLast_semi (l : List Char) (hl : l.getLast? = some ';') :
    rustTrim l ≠ [] ∧ (rustTrim l).getLast? = some ';' := by
  have hw : rustIsWhitespace ';' = false := by decide
  have h1 := dropWhile_getLast? l ';' hl hw
  have hdr : (l.dropWhile rustIsWhitespace).reverse.head? = some ';' := by
    rw [List.head?_reverse]; exact h1
  obtain ⟨t, ht⟩ : ∃ t, (l.dropWhile rustIsWhitespace).reverse = ';' :: t := by
    cases hx : (l.dropWhile rustIsWhitespace).reverse with
    | nil => rw [hx] at hdr; simp at hdr
    | cons y t =>
      rw [hx] at hdr
      have : y = ';' := by simpa using hdr
      exact ⟨t, by rw [this]⟩
  have key : (l.dropWhile rustIsWhitespace).reverse.dropWhile rustIsWhitespace
      = (l.dropWhile rustIsWhitespace).reverse := by
    rw [ht, List.dropWhile_cons, if_neg (by simp [hw])]
  have htrim : rustTrim l = l.dropWhile rustIsWhitespace := by
    unfold rustTrim
    rw [key, List.reverse_reverse]
  rw [htrim]
  refine ⟨?_, h1⟩
  intro hnil
  rw [hnil] at h1
  simp at h1

/-- C3 amended: for ASCII inputs (every character one UTF-8 byte), every
yielded statement is non-empty and ends with `;`.  The original claim's
"never consists solely of a bare `;`" clause is dropped (see the
counterexample: `" ;"` yields `";"`), and the statement is restricted to
single-byte inputs (on multi-byte inputs the yielded text can be empty or
lack the terminator, and `next` can panic). -/
theorem c3_amended_ascii_statement_shape (value stmt newVal : List Char)
    (hascii : ∀ c ∈ value, c.utf8Size = 1)
    (hyield : strStatementsNext value = Except.ok (some (stmt, newVal))) :
    stmt ≠ [] ∧ stmt.getLast? = some ';' := by
  obtain ⟨q, j, skip, cand, hqj, _, _, hslice, _, hne, hhead, hstmt, hsemi, _⟩ :=
    strStatementsNext_yield value stmt newVal hyield
  unfold byteSlice at hslice
  rw [if_pos (by omega)] at hslice
  cases hbd : byteDrop value q with
  | none => rw [hbd] at hslice; simp at hslice
  | some t =>
    rw [hbd, Option.some_bind] at hslice
    have hdrop_eq := byteDrop_ascii value hascii q
    rw [hbd] at hdrop_eq
    by_cases hql : q ≤ value.length
    case neg => rw [if_neg hql] at hdrop_eq; simp at hdrop_eq
    rw [if_pos hql] at hdrop_eq
    have ht : t = value.drop q := by simpa using hdrop_eq
    subst ht
    have hascii_t : ∀ c ∈ value.drop q, c.utf8Size = 1 := fun c hc =>
      hascii c (List.drop_subset _ _ hc)
    have htake_eq := byteTake_ascii (value.drop q) hascii_t (j + 1 - q)
    rw [hslice] at htake_eq
    by_cases hjl : j + 1 - q ≤ (value.drop q).length
    case neg => rw [if_neg hjl] at htake_eq; simp at htake_eq
    rw [if_pos hjl] at htake_eq
    have hcand : cand = (value.drop q).take (j + 1 - q) := by simpa using htake_eq
    have hdj : ((value.drop q).drop (j - q)).head? = some ';' := by
      rw [List.drop_drop, show q + (j - q) = j by omega]
      exact hsemi
    have hlast : ((value.drop q).take (j - q + 1)).getLast? = some ';' :=
      getLast?_take_succ (value.drop q) (j - q) ';' hdj
    rw [show j + 1 - q = j - q + 1 by omega] at hcand
    rw [← hcand] at hlast
    rw [hstmt]
    exact rustTrim_getLast_semi cand hlast

/-- Witness for the amended C3 at input `"a;"`. -/
theorem c3_amended_witness :
    strStatementsNext ("a;".toList) = Except.ok (some ("a;".toList, [])) ∧
    ("a;".toList ≠ [] ∧ ("a;".toList).getLast? = some ';') :=
  ⟨rfl, c3_amended_ascii_statement_shape ("a;".toList) ("a;".toList) [] (by decide) rfl⟩

lemma replStepLine_eq (leftovers rawLine : List Char) :
    replStepLine leftovers rawLine =
      if (leftovers ++ rustTrimEnd rawLine).getLast? = some ';' ∨
          (leftovers ++ rustTrimEnd rawLine).head? = some '.' then
        ⟨[], some (leftovers ++ rustTrimEnd rawLine), some (leftovers ++ rustTrimEnd rawLine)⟩
      else
        ⟨(leftovers ++ rustTrimEnd rawLine) ++ [' '], none, none⟩ := rfl

/-- C5: when the pending text joined with the trailing-whitespace-trimmed raw
line neither ends with `;` nor starts with `.`, the accumulator emits nothing,
appends nothing to history, stores the joined text with exactly one appended
space as the new pending state, and the next read uses the continuation
prompt, which differs from the primary prompt. -/
theorem c5_incomplete_line_goes_pending (leftovers rawLine : List Char)
    (hsemi : (leftovers ++ rustTrimEnd rawLine).getLast? ≠ some ';')
    (hdot : (leftovers ++ rustTrimEnd rawLine).head? ≠ some '.') :
    replStepLine leftovers rawLine =
      ⟨(leftovers ++ rustTrimEnd rawLine) ++ [' '], none, none⟩ ∧
    promptFor ((leftovers ++ rustTrimEnd rawLine) ++ [' ']) = "...   > ".toList ∧
    "...   > ".toList ≠ ("libsql> ".toList : List Char) := by
  refine ⟨?_, ?_, by decide⟩
  · rw [replStepLine_eq, if_neg (not_or.mpr ⟨hsemi, hdot⟩)]
  · unfold promptFor
    rw [if_neg (by simp)]

/-- Witness for C5: an idle accumulator reading `"SELECT 1"`. -/
theorem c5_incomplete_line_goes_pending_witness :
    replStepLine [] ("SELECT 1".toList) = ⟨"SELECT 1 ".toList, none, none⟩ ∧
    promptFor ("SELECT 1 ".toList) = "...   > ".toList ∧
    "...   > ".toList ≠ ("libsql> ".toList : List Char) :=
  c5_incomplete_line_goes_pending [] ("SELECT 1".toList) (by decide) (by decide)

/-- C7 counterexample: the code appends EVERY completed unit to the history —
`rl.add_history_entry(&line)` runs before the `.`-dispatch check — so the
directive `".tables"`, whose head is the marker `.`, IS appended, contradicting
the claim that units beginning with the directive marker are not appended. -/
theorem c7_counterexample :
    (replStepLine [] (".tables".toList)).histEntry = some (".tables".toList) ∧
    (".tables".toList).head? = some '.' :=
  ⟨rfl, rfl⟩

/-- C7 amended: a completed logical unit is appended to the input history if
and only if it is emitted at all — SQL and directives alike are appended
(before dispatch), and nothing is appended while the unit is incomplete. -/
theorem c7_amended_history_iff_emitted (leftovers rawLine : List Char) :
    (replStepLine leftovers rawLine).histEntry = (replStepLine leftovers rawLine).emitted := by
  rw [replStepLine_eq]
  by_cases h : (leftovers ++ rustTrimEnd rawLine).getLast? = some ';' ∨
      (leftovers ++ rustTrimEnd rawLine).head? = some '.'
  · rw [if_pos h]
  · rw [if_neg h]

/-- C8 counterexample: an unexpected read error makes the loop `break`; after
the loop `save_history` runs and `main` returns `Ok(())`, so the process exits
with code 0 — NOT the non-zero code the claim requires. -/
theorem c8_counterexample :
    (replRun [ReplEvent.readError] [] []).map ReplFinal.exitCode = some 0 :=
  rfl

/-- C8 amended: termination by end-of-input exits with code 0, and an
unexpected read-loop failure also exits with code 0 after printing the error
(both paths merely `break`, save the history, and return `Ok(())`). -/
theorem c8_amended_exit_codes (evs : List ReplEvent) (leftovers : List Char)
    (hist : List (List Char)) :
    replRun (ReplEvent.eof :: evs) leftovers hist =
      some ⟨0, some hist, ExitCause.eofEnd⟩ ∧
    replRun (ReplEvent.readError :: evs) leftovers hist =
      some ⟨0, some hist, ExitCause.errEnd⟩ :=
  ⟨rfl, rfl⟩

/-- C9 counterexample: the `quit` directive terminates via
`std::process::exit(0)` inside `run_command`, which never reaches the
`save_history` call after the loop — a normal shutdown with the history
unsaved, contradicting the claim. -/
theorem c9_counterexample :
    (replRun [ReplEvent.line (".quit".toList)] [] []).map ReplFinal.saved = some none ∧
    (replRun [ReplEvent.line (".quit".toList)] [] []).map ReplFinal.exitCode = some 0 :=
  ⟨rfl, rfl⟩

/-- C9 amended: on end-of-input the history is saved (with whatever in-memory
entries it holds) before the process exits 0; the `quit` directive, issued at
an idle prompt, exits 0 immediately WITHOUT saving the history. -/
theorem c9_amended_history_saved_on_eof_not_quit (evs : List ReplEvent)
    (leftovers : List Char) (hist : List (List Char)) :
    replRun (ReplEvent.eof :: evs) leftovers hist =
      some ⟨0, some hist, ExitCause.eofEnd⟩ ∧
    replRun (ReplEvent.line (".quit".toList) :: evs) [] hist =
      some ⟨0, none, ExitCause.quitCmd⟩ :=
  ⟨rfl, rfl⟩

lemma runStatementLoop_spec (db : Db) :
    ∀ (fuel : Nat) (value : List Char) (acc : List OutEvent)
      (stmts : List (List Char)) (buf : List Char),
      runAll fuel value = Except.ok (stmts, buf) →
      runStatementLoop db fuel value acc =
        Except.ok (acc.reverse ++ stmts.filterMap (statementOutcome db)) := by
  intro fuel
  induction fuel with
  | zero => intro value acc stmts buf h; simp [runAll] at h
  | succ fuel ih =>
    intro value acc stmts buf h
    simp only [runAll] at h
    simp only [runStatementLoop]
    split at h
    · simp at h
    · rename_i heq
      have hp : ([] : List (List Char)) = stmts ∧ value = buf := by simpa using h
      obtain ⟨rfl, rfl⟩ := hp
      simp
    · rename_i s rest heq
      split at h
      · simp at h
      · rename_i stmts' buf' hrec
        have hp : s :: stmts' = stmts ∧ buf' = buf := by simpa using h
        obtain ⟨rfl, rfl⟩ := hp
        cases hprep : db.prepare s with
        | error e =>
          simp [ih rest (OutEvent.errorMsg ("Error: " ++ e) :: acc) stmts' buf' hrec,
            statementOutcome, hprep, List.filterMap_cons]
        | ok u =>
          cases hexec : db.execute s with
          | error e =>
            simp [ih rest (OutEvent.errorMsg ("Error: " ++ e) :: acc) stmts' buf' hrec,
              statementOutcome, hprep, hexec, List.filterMap_cons]
          | ok rows =>
            by_cases hrows : rows.isEmpty = true
            · simp [hrows, ih rest acc stmts' buf' hrec,
                statementOutcome, hprep, hexec, List.filterMap_cons]
            · simp [hrows, ih rest (OutEvent.table (db.columns s) rows :: acc) stmts' buf' hrec,
                statementOutcome, hprep, hexec, List.filterMap_cons]

/-- C6: each segmented statement's outcome is computed independently — the
loop's output is exactly the per-statement outcomes of the yielded statements
in order, for ANY engine behaviour; a failure (to prepare or to execute) is
reported as that statement's event and the loop continues with the rest. -/
theorem c6_failures_reported_per_statement (db : Db) (fuel : Nat)
    (statement : List Char) (stmts : List (List Char)) (buf : List Char)
    (hseg : runAll fuel statement = Except.ok (stmts, buf)) :
    run_statement db fuel statement =
      Except.ok (stmts.filterMap (statementOutcome db)) := by
  have h := runStatementLoop_spec db fuel statement [] stmts buf hseg
  simpa [run_statement] using h

/-- Witness for C6: `"BAD;"` fails to prepare, yet `"SELECT 1;"` in the same
unit still executes and prints its rows. -/
theorem c6_failures_reported_per_statement_witness :
    runAll 20 ("BAD;SELECT 1;".toList) =
      Except.ok (["BAD;".toList, "SELECT 1;".toList], []) ∧
    run_statement dbC6 20 ("BAD;SELECT 1;".toList) =
      Except.ok [OutEvent.errorMsg "Error: near BAD: syntax error",
        OutEvent.table ["1"] [["1"]]] :=
  ⟨rfl, c6_failures_reported_per_statement dbC6 20 ("BAD;SELECT 1;".toList)
    ["BAD;".toList, "SELECT 1;".toList] [] rfl⟩

/-- C10: a text value whose bytes are not valid UTF-8 (here `[0xFF]`) makes
row rendering panic — `Except.error ()`, the panic channel — instead of
surfacing through `execute`'s `Result` channel (which would be
`Except.ok (Except.error _)`); the same pipeline succeeds on valid UTF-8. -/
theorem c10_invalid_utf8_text_panics :
    execute (Except.ok [[ValueRef.text [255]]]) 1 = Except.error () ∧
    utf8Decode [255] = none ∧
    execute (Except.ok [[ValueRef.text [104, 105]]]) 1 =
      Except.ok (Except.ok [["hi"]]) :=
  ⟨rfl, rfl, rfl⟩
